import Mathlib

/-!
Shallow embedding of the analysis engine of `src/analyze.ts` from the
info-sphere-analyzer repository.

The engine loads a corpus of TypeScript modules, runs a declaration-collector
pass (pass 1), a symbol-resolved call-graph pass (pass 2), synthesizes
Volume / Area / Cohesion / Sphericity per module, and returns the modules
sorted ascending by sphericity.

Modelling conventions:
* JavaScript numbers are modelled as `ℚ` for the exact arithmetic parts
  (counts, weights, V, A, cohesion) and as `ℝ` for sphericity, which uses a
  non-integer power.  `Number.EPSILON` is the rational `2 ^ (-52)`.
* `path.relative(process.cwd(), ·)` is abstracted as a parameter
  `rel : String → String`.
* The insertion-ordered `Record<string, …>` map `modulesMap` is modelled as
  an association list in insertion (= corpus discovery) order; updating a
  missing key is a no-op, exactly as in the JavaScript code.
* Regular-expression matching of the fixed outbound-call alternation
  `fetch\(|axios\.|http\.request|XMLHttpRequest` is modelled by literal
  substring scanning with ordered alternatives and non-overlapping global
  counting, which is what the JavaScript regex engine does for this pattern.
-/

namespace InfoSphere

/-! ### String scanning primitives -/

/-- Does the character list `l` start with the pattern `p`? -/
def startsWithL : List Char → List Char → Bool
  | _, [] => true
  | [], _ :: _ => false
  | a :: as, b :: bs => a == b && startsWithL as bs

/-- Does the pattern `p` occur as a contiguous run inside `l`? -/
def containsL : List Char → List Char → Bool
  | [], p => startsWithL [] p
  | a :: rest, p => startsWithL (a :: rest) p || containsL rest p

/-- Substring test on strings (models JavaScript `String.prototype.includes`). -/
def containsSub (s pat : String) : Bool :=
  containsL s.toList pat.toList

/-- One step of global regex counting: scan left to right; `skip` characters
are still to be consumed by the previous match.  At a free position the
alternatives are tried in order and the first that matches wins, and the scan
resumes after the matched text (non-overlapping), as the JavaScript global
regex match does. -/
def countOccAux (pats : List (List Char)) : List Char → Nat → Nat
  | [], _ => 0
  | _ :: rest, skip + 1 => countOccAux pats rest skip
  | c :: rest, 0 =>
    match pats.find? (fun p => startsWithL (c :: rest) p) with
    | some p => 1 + countOccAux pats rest (p.length - 1)
    | none => countOccAux pats rest 0

/-- Number of matches of the ordered alternation `pats` in `l`
(models `text.match(/p1|p2|…/g)?.length ?? 0`). -/
def countOcc (pats : List (List Char)) (l : List Char) : Nat :=
  countOccAux pats l 0

/-- Does any alternative of `pats` occur in `l`
(models `/p1|p2|…/.test(text)`)? -/
def testPat (pats : List (List Char)) (l : List Char) : Bool :=
  pats.any (fun p => containsL l p)

/-- The fixed outbound-call alternation
`fetch\(|axios\.|http\.request|XMLHttpRequest` of `analyze.ts`. -/
def outboundPats : List (List Char) :=
  [ ("fetch(").toList, ("axios.").toList, ("http.request").toList,
    ("XMLHttpRequest").toList ]

/-! ### Symbols, declarations and call expressions (resolver input) -/

/-- A declaration site of a symbol: `d.getSourceFile()` may be absent, else
it yields the declaring file path. -/
structure Decl where
  sourceFile : Option String
deriving DecidableEq

/-- A checker symbol: its list of declaration sites (`sym.getDeclarations()`). -/
structure Sym where
  decls : List Decl
deriving DecidableEq

/-- The callee expression of a call, with the symbol (`getSymbol()`) each node
carries.  `member obj sym` is a property access `obj.name` whose own symbol is
`sym`; `ident sym` a bare identifier; `other sym` any other expression form. -/
inductive Callee where
  | member (obj : Callee) (sym : Option Sym)
  | ident (sym : Option Sym)
  | other (sym : Option Sym)
deriving DecidableEq

/-- The symbol directly attached to a callee node (`expr.getSymbol()`). -/
def Callee.symbolOf : Callee → Option Sym
  | .member _ s => s
  | .ident s => s
  | .other s => s

/-- A call expression node. -/
structure CallExpr where
  callee : Callee
deriving DecidableEq

/-- Symbol lookup of `resolveCallTargetFile` (analyze.ts lines 73–89): try the
expression's own symbol; if absent and the expression is a property access,
fall back to the symbol of its object expression (one level); for identifiers
and other forms the fallback re-reads the same symbol. -/
def resolveSym (c : Callee) : Option Sym :=
  match c.symbolOf with
  | some s => some s
  | none =>
    match c with
    | .member obj _ => obj.symbolOf
    | .ident s => s
    | .other s => s

/-- Following the specification's words, not the code: the left-most
sub-expression of a member-access chain (the `a` of `a.b.c(...)`), for
comparison with the code's one-level fallback in `resolveSym`. -/
def leftmostExpr : Callee → Callee
  | .member obj _ => leftmostExpr obj
  | .ident s => .ident s
  | .other s => .other s

/-- Is a file path inside a dependency / vendor area (analyze.ts line 58)? -/
def isNodeModuleFile (fp : String) : Bool :=
  containsSub fp "node_modules" || containsSub fp "/@types/" ||
    containsSub fp "\\node_modules\\"

/-- Walk the declaration list (analyze.ts lines 97–104): the first declaration
with a source file decides: a vendor path yields the marker string
"external", otherwise the path relative to the working root is returned. -/
def firstDeclResult (rel : String → String) : List Decl → Option String
  | [] => none
  | d :: ds =>
    match d.sourceFile with
    | none => firstDeclResult rel ds
    | some fp => if isNodeModuleFile fp then some "external" else some (rel fp)

/-- Resolution of a call's target file (analyze.ts lines 69–107):
`some "external"` for vendor targets, `some p` for a project-relative path,
`none` when resolution failed. -/
def resolveCallTargetFile (rel : String → String) (call : CallExpr) :
    Option String :=
  match resolveSym call.callee with
  | none => none
  | some s => firstDeclResult rel s.decls

/-! ### Per-module accumulator and the module map -/

/-- The mutable per-module counter record of `modulesMap` (analyze.ts
lines 130–142). -/
structure Acc where
  exportedCount : Nat
  externalImports : Nat
  privateMethodCount : Nat
  publicMethodCount : Nat
  internalTypeCount : Nat
  outgoingCallHeuristic : Nat
  callsOut_total : Nat
  callsOut_internal : Nat
  callsOut_external : Nat
  incomingInternal : Nat
  incomingExternal : Nat
deriving DecidableEq

/-- The all-zero initial accumulator (analyze.ts lines 147–159). -/
def Acc.init : Acc :=
  ⟨0, 0, 0, 0, 0, 0, 0, 0, 0, 0, 0⟩

/-- The module map in insertion (corpus discovery) order. -/
abbrev ModMap : Type := List (String × Acc)

/-- Update the entry of `key` (a no-op when the key is absent, exactly like
mutating `modulesMap[key]` after an existence check). -/
def updateAt (mm : ModMap) (key : String) (f : Acc → Acc) : ModMap :=
  List.map (fun e => if e.1 = key then (e.1, f e.2) else e) mm

/-- Look up the accumulator of `key`. -/
def findAcc (mm : ModMap) (key : String) : Option Acc :=
  (List.find? (fun e => e.1 == key) mm).map (fun e => e.2)

/-! ### Source modules (loader output) -/

/-- A class method with its modifiers and body text
(`getBodyText()` may be absent). -/
structure MethodDecl where
  hasPublicModifier : Bool
  hasPrivateModifier : Bool
  hasProtectedModifier : Bool
  bodyText : Option String
deriving DecidableEq

/-- A class declaration: its methods, property count and constructor count. -/
structure ClassDecl where
  methods : List MethodDecl
  propertyCount : Nat
  constructorCount : Nat
deriving DecidableEq

/-- A top-level function declaration. -/
structure FunctionDecl where
  isExported : Bool
  bodyText : Option String
deriving DecidableEq

/-- One analyzed source file, identified by its path relative to the working
root, in the shape exposed by the loader: export table keys, import
specifiers, classes, top-level functions, call expressions and raw text. -/
structure SourceModule where
  id : String
  exportedNames : List String
  importSpecifiers : List String
  classes : List ClassDecl
  functions : List FunctionDecl
  calls : List CallExpr
  fullText : String
deriving DecidableEq

/-- The fresh module map over the corpus, in discovery order
(analyze.ts lines 145–160). -/
def initMap (corpus : List SourceModule) : ModMap :=
  corpus.map (fun sm => (sm.id, Acc.init))

/-! ### Pass 1: declaration collector -/

/-- Method classification (analyze.ts line 179): public when explicitly
marked public, or when carrying no private / protected modifier. -/
def methodIsPublic (m : MethodDecl) : Bool :=
  m.hasPublicModifier || (!m.hasPrivateModifier && !m.hasProtectedModifier)

/-- Outbound-call heuristic test on a body (`mth.getBodyText() || ""` fed to
the fixed alternation's `.test`). -/
def bodyHasOutbound (b : Option String) : Bool :=
  testPat outboundPats (b.getD "").toList

/-- Collector step for one class method (analyze.ts lines 178–185). -/
def collectMethod (a : Acc) (m : MethodDecl) : Acc :=
  let a1 :=
    if methodIsPublic m then
      { a with publicMethodCount := a.publicMethodCount + 1 }
    else
      { a with privateMethodCount := a.privateMethodCount + 1 }
  if bodyHasOutbound m.bodyText then
    { a1 with outgoingCallHeuristic := a1.outgoingCallHeuristic + 1 }
  else a1

/-- Collector step for one class (analyze.ts lines 176–187). -/
def collectClass (a : Acc) (cls : ClassDecl) : Acc :=
  let a1 := cls.methods.foldl collectMethod a
  { a1 with internalTypeCount :=
      a1.internalTypeCount + (cls.propertyCount + cls.constructorCount) }

/-- Collector step for one top-level function (analyze.ts lines 190–195). -/
def collectFunction (a : Acc) (fn : FunctionDecl) : Acc :=
  let a1 :=
    if fn.isExported then
      { a with publicMethodCount := a.publicMethodCount + 1 }
    else
      { a with privateMethodCount := a.privateMethodCount + 1 }
  if bodyHasOutbound fn.bodyText then
    { a1 with outgoingCallHeuristic := a1.outgoingCallHeuristic + 1 }
  else a1

/-- Import classification (analyze.ts lines 170–173): external when the
specifier begins with neither "." nor "/". -/
def isExternalImport (spec : String) : Bool :=
  !(startsWithL spec.toList ['.'] || startsWithL spec.toList ['/'])

/-- Pass-1 work on one module (analyze.ts lines 163–200): exported count,
external-import count, class and function sweeps, then the whole-text
occurrence count of the outbound alternation added on top. -/
def collect (sm : SourceModule) (a : Acc) : Acc :=
  let a1 := { a with exportedCount := sm.exportedNames.length }
  let a2 := { a1 with
    externalImports := (sm.importSpecifiers.filter isExternalImport).length }
  let a3 := sm.classes.foldl collectClass a2
  let a4 := sm.functions.foldl collectFunction a3
  { a4 with outgoingCallHeuristic :=
      a4.outgoingCallHeuristic + countOcc outboundPats sm.fullText.toList }

/-- Pass 1 over the whole corpus. -/
def pass1 (corpus : List SourceModule) (mm : ModMap) : ModMap :=
  corpus.foldl (fun mm sm => updateAt mm sm.id (collect sm)) mm

/-! ### Pass 2: call-graph resolver tally -/

/-- Tally of one call expression of `callerFile` (analyze.ts lines 210–244):
the caller's total always grows; an "external" or unresolved target grows the
caller's external bucket; a target equal to the caller's path grows the
internal bucket (the code's `incomingInternal += 0` is kept as written); any
other target grows the caller's external bucket and, when that target is a
tracked key, the target's `incomingInternal`, the untracked case being an
explicit no-op. -/
def processCall (rel : String → String) (callerFile : String) (mm : ModMap)
    (call : CallExpr) : ModMap :=
  let mm1 := updateAt mm callerFile
    (fun a => { a with callsOut_total := a.callsOut_total + 1 })
  match resolveCallTargetFile rel call with
  | some t =>
    if t = "external" then
      updateAt mm1 callerFile
        (fun a => { a with callsOut_external := a.callsOut_external + 1 })
    else if t = callerFile then
      updateAt mm1 callerFile
        (fun a => { a with
          callsOut_internal := a.callsOut_internal + 1,
          incomingInternal := a.incomingInternal + 0 })
    else
      updateAt
        (updateAt mm1 callerFile
          (fun a => { a with callsOut_external := a.callsOut_external + 1 }))
        t (fun a => { a with incomingInternal := a.incomingInternal + 1 })
  | none =>
    updateAt mm1 callerFile
      (fun a => { a with callsOut_external := a.callsOut_external + 1 })

/-- Pass 2 over the whole corpus (analyze.ts lines 204–245). -/
def pass2 (rel : String → String) (corpus : List SourceModule) (mm : ModMap) :
    ModMap :=
  corpus.foldl (fun mm sm => sm.calls.foldl (processCall rel sm.id) mm) mm

/-! ### Weights and configuration -/

/-- The named weight table (analyze.ts lines 7–15). -/
structure Weights where
  privateMethod : ℚ
  internalCall : ℚ
  internalType : ℚ
  exportedSymbol : ℚ
  publicMethod : ℚ
  externalImport : ℚ
  outgoingCall : ℚ
deriving DecidableEq

/-- Built-in default weights (analyze.ts lines 25–33). -/
def DEFAULT_WEIGHTS : Weights :=
  ⟨1, 1, 2, 3, 2, 2, 2⟩

/-- All seven weight categories carry a positive multiplier. -/
def Weights.AllPos (w : Weights) : Prop :=
  0 < w.privateMethod ∧ 0 < w.internalCall ∧ 0 < w.internalType ∧
    0 < w.exportedSymbol ∧ 0 < w.publicMethod ∧ 0 < w.externalImport ∧
    0 < w.outgoingCall

/-- A partial weight override, one optional entry per category. -/
structure PartialWeights where
  privateMethod : Option ℚ := none
  internalCall : Option ℚ := none
  internalType : Option ℚ := none
  exportedSymbol : Option ℚ := none
  publicMethod : Option ℚ := none
  externalImport : Option ℚ := none
  outgoingCall : Option ℚ := none
deriving DecidableEq

/-- The weight merge `{ ...DEFAULT_WEIGHTS, ...(cfg.weights || {}) }`
(analyze.ts line 111): per category, the configured override when present,
the built-in default otherwise. -/
def mergeWeights (ov : Option PartialWeights) : Weights :=
  match ov with
  | none => DEFAULT_WEIGHTS
  | some o =>
    { privateMethod := o.privateMethod.getD DEFAULT_WEIGHTS.privateMethod
      internalCall := o.internalCall.getD DEFAULT_WEIGHTS.internalCall
      internalType := o.internalType.getD DEFAULT_WEIGHTS.internalType
      exportedSymbol := o.exportedSymbol.getD DEFAULT_WEIGHTS.exportedSymbol
      publicMethod := o.publicMethod.getD DEFAULT_WEIGHTS.publicMethod
      externalImport := o.externalImport.getD DEFAULT_WEIGHTS.externalImport
      outgoingCall := o.outgoingCall.getD DEFAULT_WEIGHTS.outgoingCall }

/-- The resolved configuration (analyze.ts lines 17–23); the corpus itself is
passed to the engine already loaded, so the glob patterns are carried only as
data. -/
structure Config where
  includePatterns : List String := []
  excludePatterns : Option (List String) := none
  weights : Option PartialWeights := none
  alpha : Option ℚ := none
  thresholds : Option (ℚ × ℚ) := none
deriving DecidableEq

/-- The exponent actually used: `cfg.alpha ?? 1.8` (analyze.ts line 112). -/
def alphaOf (cfg : Config) : ℚ :=
  cfg.alpha.getD (1.8 : ℚ)

/-! ### Metric synthesizer -/

/-- The value of `Number.EPSILON`. -/
def epsilonQ : ℚ :=
  1 / 2 ^ 52

/-- Zero-area floor substitution (analyze.ts line 265):
`rawA === 0 ? Number.EPSILON : rawA`. -/
def aForS (a : ℚ) : ℚ :=
  if a = 0 then epsilonQ else a

/-- The immutable output record per module (analyze.ts lines 48–56 and
268–283), parametrized by the number type `K` carrying the sphericity
score. -/
structure ModuleMetrics (K : Type) where
  id : String
  file : String
  V : ℚ
  A : ℚ
  s : K
  cohesion : ℚ
  extras : Acc
deriving DecidableEq

/-- Synthesis of one module's metrics record (analyze.ts lines 249–283):
Volume and Area from the weighted counts, cohesion from the call tallies, and
sphericity obtained by feeding Volume and the floor-substituted Area to the
scoring function `sKey` (instantiated with `V / AforS ^ alpha` over `ℝ`). -/
def composeModule {K : Type} (w : Weights) (sKey : ℚ → ℚ → K)
    (file : String) (data : Acc) : ModuleMetrics K :=
  let rawV : ℚ :=
    (data.privateMethodCount : ℚ) * w.privateMethod
      + ((data.callsOut_internal : ℚ) + (data.incomingInternal : ℚ))
        * w.internalCall
      + (data.internalTypeCount : ℚ) * w.internalType
  let rawA : ℚ :=
    (data.exportedCount : ℚ) * w.exportedSymbol
      + (data.publicMethodCount : ℚ) * w.publicMethod
      + (data.externalImports : ℚ) * w.externalImport
      + (data.outgoingCallHeuristic : ℚ) * w.outgoingCall
      + (data.callsOut_external : ℚ) * w.outgoingCall
  let cohesion : ℚ :=
    if data.callsOut_total = 0 then 1
    else (data.callsOut_internal : ℚ) / (data.callsOut_total : ℚ)
  { id := file
    file := file
    V := rawV
    A := rawA
    s := sKey rawV (aForS rawA)
    cohesion := cohesion
    extras := data }

/-- Base-10 value of a digit string. -/
def digitsVal (l : List Char) : Nat :=
  l.foldl (fun n ch => n * 10 + (ch.toNat - 48)) 0

/-- Is a string an array-index property key in the sense of JavaScript
object enumeration: the canonical base-10 rendering (all digits, no leading
zero except "0" itself) of an integer below `2 ^ 32 - 1`? -/
def isArrayIndexKey (s : String) : Bool :=
  match s.toList with
  | [] => false
  | c :: cs =>
    (c :: cs).all Char.isDigit &&
      !(c == '0' && !cs.isEmpty) &&
      digitsVal (c :: cs) < 4294967295

/-- The entry order of `Object.entries` over a string-keyed JavaScript
object: array-index keys first in ascending numeric order, then the
remaining keys in insertion order. -/
def entriesOrder (mm : ModMap) : ModMap :=
  (@List.insertionSort (String × Acc)
      (fun a b => digitsVal a.1.toList ≤ digitsVal b.1.toList)
      (fun a b =>
        inferInstanceAs (Decidable (digitsVal a.1.toList ≤ digitsVal b.1.toList)))
      (mm.filter (fun e => isArrayIndexKey e.1)))
    ++ mm.filter (fun e => !isArrayIndexKey e.1)

/-- The composed (pre-sort) metrics list: init, pass 1, pass 2, then one
record per map entry in the order `Object.entries` reports them (array-index
keys first in numeric order, all other keys in insertion, i.e. corpus
discovery, order). -/
def composedList {K : Type} (sKey : ℚ → ℚ → K) (cfg : Config)
    (corpus : List SourceModule) (rel : String → String) :
    List (ModuleMetrics K) :=
  let w := mergeWeights cfg.weights
  let mm := pass2 rel corpus (pass1 corpus (initMap corpus))
  (entriesOrder mm).map (fun e => composeModule w sKey e.1 e.2)

/-- The ranker's sort (analyze.ts line 287): JavaScript's stable
`Array.prototype.sort` under the comparator `(a, b) => a.s - b.s`, i.e. a
stable sort ascending by sphericity. -/
def sortModules {K : Type} [LinearOrder K] (l : List (ModuleMetrics K)) :
    List (ModuleMetrics K) :=
  @List.insertionSort (ModuleMetrics K) (fun a b => a.s ≤ b.s)
    (fun a b => inferInstanceAs (Decidable (a.s ≤ b.s))) l

/-- The engine pipeline over an abstract sphericity score type. -/
def analyzeCore {K : Type} [LinearOrder K] (sKey : ℚ → ℚ → K) (cfg : Config)
    (corpus : List SourceModule) (rel : String → String) :
    List (ModuleMetrics K) :=
  sortModules (composedList sKey cfg corpus rel)

/-- Real-valued sphericity (analyze.ts line 266):
`rawV / Math.pow(AforS, alpha)`, applied to the already floor-substituted
area. -/
noncomputable def sphericityR (alpha : ℝ) (v aSubst : ℚ) : ℝ :=
  (v : ℝ) / (aSubst : ℝ) ^ alpha

/-- The analysis engine (analyze.ts `analyze`): the pipeline instantiated at
real-valued sphericity with the configured exponent. -/
noncomputable def analyze (cfg : Config) (corpus : List SourceModule)
    (rel : String → String) : List (ModuleMetrics ℝ) :=
  analyzeCore (fun v aSubst => sphericityR ((alphaOf cfg : ℚ) : ℝ) v aSubst)
    cfg corpus rel

/-! ### Concrete fixtures exercised by the closed witness theorems -/

/-- A degenerate sphericity key over `ℕ`, used to run the generic pipeline
on concrete corpora. -/
def constKey : ℚ → ℚ → ℕ := fun _ _ => 0

/-- Identity stand-in for `path.relative(process.cwd(), ·)`. -/
def relW : String → String := fun p => p

/-- A trivial concrete module. -/
def smWA : SourceModule := ⟨"src/wa.ts", [], [], [], [], [], ""⟩

/-- A second trivial concrete module. -/
def smWB : SourceModule := ⟨"src/wb.ts", [], [], [], [], [], ""⟩

/-- A two-module concrete corpus. -/
def corpusW : List SourceModule := [smWA, smWB]

/-- The metrics record the pipeline composes for `smWA`. -/
def mWA : ModuleMetrics ℕ :=
  composeModule (mergeWeights (none : Option PartialWeights)) constKey
    "src/wa.ts" (collect smWA Acc.init)

/-- The metrics record the pipeline composes for `smWB`. -/
def mWB : ModuleMetrics ℕ :=
  composeModule (mergeWeights (none : Option PartialWeights)) constKey
    "src/wb.ts" (collect smWB Acc.init)

/-- A symbol declared in the file `fp`. -/
def symW (fp : String) : Sym := ⟨[⟨some fp⟩]⟩

/-- A bare-identifier call whose symbol is declared in `fp`. -/
def callW (fp : String) : CallExpr := ⟨.ident (some (symW fp))⟩

/-- A call with no resolvable symbol. -/
def callU : CallExpr := ⟨.ident none⟩

/-- A concrete two-entry module map. -/
def mmW : ModMap := [("src/wa.ts", Acc.init), ("src/wb.ts", Acc.init)]

/-- A one-entry module map whose module path is the literal sentinel
string "external". -/
def mmExt : ModMap := [("external", Acc.init)]

/-- A two-entry module map that tracks a module whose project-relative path
is the literal string "external". -/
def mmCex : ModMap := [("src/wa.ts", Acc.init), ("external", Acc.init)]

/-- A trivial module whose relative path is the array-index-like string
"7". -/
def smI7 : SourceModule := ⟨"7", [], [], [], [], [], ""⟩

/-- A corpus that discovers an ordinary module before the "7" module. -/
def corpusIdx : List SourceModule := [smWA, smI7]

/-- The metrics record the pipeline composes for `smI7`. -/
def mI7 : ModuleMetrics ℕ :=
  composeModule (mergeWeights (none : Option PartialWeights)) constKey
    "7" (collect smI7 Acc.init)

/-- A symbol with an empty declaration list. -/
def symEmpty : Sym := ⟨[]⟩

/-- The callee of `a.b(...)` where the object `a` carries a symbol with no
declarations. -/
def calleeEmptyDecls : Callee := .member (.ident (some symEmpty)) none

/-- A symbol sitting on the left-most identifier of a member chain. -/
def symLeft : Sym := ⟨[⟨some "src/wa.ts"⟩]⟩

/-- The callee of `a.b.c(...)` where only the left-most identifier `a`
carries a symbol. -/
def calleeChain : Callee := .member (.member (.ident (some symLeft)) none) none

/-- The real-valued metrics record the engine composes for `smWA` under the
default configuration. -/
noncomputable def mWR : ModuleMetrics ℝ :=
  composeModule (mergeWeights (none : Option PartialWeights))
    (fun v aSubst => sphericityR ((alphaOf {} : ℚ) : ℝ) v aSubst)
    "src/wa.ts" (collect smWA Acc.init)

/-! ### Map lemmas -/

theorem findAcc_cons (e : String × Acc) (t : ModMap) (q : String) :
    findAcc (e :: t) q = if e.1 = q then some e.2 else findAcc t q := by
  by_cases h : e.1 = q
  · simp [findAcc, List.find?_cons, h]
  · have hb : (e.1 == q) = false := by simpa using h
    simp [findAcc, List.find?_cons, hb, h]

theorem updateAt_cons (e : String × Acc) (t : ModMap) (k : String) (f : Acc → Acc) :
    updateAt (e :: t) k f =
      (if e.1 = k then (e.1, f e.2) else e) :: updateAt t k f := rfl

theorem findAcc_updateAt_self (mm : ModMap) (k : String) (f : Acc → Acc) :
    findAcc (updateAt mm k f) k = (findAcc mm k).map f := by
  induction mm with
  | nil => rfl
  | cons e t ih =>
    rw [updateAt_cons]
    by_cases h : e.1 = k
    · rw [if_pos h, findAcc_cons, findAcc_cons, if_pos h, if_pos h]
      rfl
    · rw [if_neg h, findAcc_cons, findAcc_cons, if_neg h, if_neg h]
      exact ih

theorem findAcc_updateAt_ne (mm : ModMap) (k q : String) (f : Acc → Acc)
    (h : q ≠ k) : findAcc (updateAt mm k f) q = findAcc mm q := by
  induction mm with
  | nil => rfl
  | cons e t ih =>
    rw [updateAt_cons]
    by_cases he : e.1 = k
    · have hq : ¬e.1 = q := fun hh => h (hh ▸ he)
      rw [if_pos he, findAcc_cons, findAcc_cons, if_neg hq, if_neg hq]
      exact ih
    · by_cases hq : e.1 = q
      · rw [if_neg he, findAcc_cons, findAcc_cons, if_pos hq, if_pos hq]
      · rw [if_neg he, findAcc_cons, findAcc_cons, if_neg hq, if_neg hq]
        exact ih

theorem keys_updateAt (mm : ModMap) (k : String) (f : Acc → Acc) :
    (updateAt mm k f).map (fun e => e.1) = mm.map (fun e => e.1) := by
  induction mm with
  | nil => rfl
  | cons e t ih =>
    by_cases h : e.1 = k <;> simp [updateAt, h] at ih ⊢ <;> exact ih

theorem mem_updateAt (mm : ModMap) (k : String) (f : Acc → Acc) (x : String × Acc)
    (hx : x ∈ updateAt mm k f) :
    ∃ e ∈ mm, x = e ∨ x = (e.1, f e.2) := by
  simp only [updateAt, List.mem_map] at hx
  obtain ⟨e, he, hxe⟩ := hx
  refine ⟨e, he, ?_⟩
  by_cases h : e.1 = k
  · right
    rw [if_pos h] at hxe
    exact hxe.symm
  · left
    rw [if_neg h] at hxe
    exact hxe.symm

theorem updateAt_forall (P : Acc → Prop) (mm : ModMap) (k : String) (f : Acc → Acc)
    (hall : ∀ e ∈ mm, P e.2) (hf : ∀ a, P a → P (f a)) :
    ∀ e ∈ updateAt mm k f, P e.2 := by
  intro x hx
  obtain ⟨e, he, hcase⟩ := mem_updateAt mm k f x hx
  rcases hcase with rfl | rfl
  · exact hall _ he
  · exact hf _ (hall _ he)

theorem updateAt_updateAt_same (mm : ModMap) (k : String) (f g : Acc → Acc) :
    updateAt (updateAt mm k f) k g = updateAt mm k (fun a => g (f a)) := by
  induction mm with
  | nil => rfl
  | cons e t ih =>
    by_cases h : e.1 = k <;> simp [updateAt, h] at ih ⊢ <;> exact ih

theorem foldl_preserve {σ β : Type} (Inv : σ → Prop) (step : σ → β → σ)
    (h : ∀ s x, Inv s → Inv (step s x)) :
    ∀ (l : List β) (s : σ), Inv s → Inv (List.foldl step s l) := by
  intro l
  induction l with
  | nil => intro s hs; exact hs
  | cons x t ih => intro s hs; exact ih _ (h s x hs)


theorem foldl_acc_field {β γ : Type} (g : Acc → γ) (step : Acc → β → Acc)
    (h : ∀ a x, g (step a x) = g a) :
    ∀ (l : List β) (a : Acc), g (List.foldl step a l) = g a := by
  intro l
  induction l with
  | nil => intro a; rfl
  | cons x t ih => intro a; rw [List.foldl_cons, ih, h]

/-- The accumulator fields that pass 2 owns (and pass 1 never touches),
together with `incomingExternal`. -/
def callFields (a : Acc) : Nat × Nat × Nat × Nat × Nat :=
  (a.callsOut_total, a.callsOut_internal, a.callsOut_external,
    a.incomingInternal, a.incomingExternal)

theorem callFields_collectMethod (a : Acc) (m : MethodDecl) :
    callFields (collectMethod a m) = callFields a := by
  simp only [collectMethod]
  split_ifs <;> rfl

theorem callFields_collectClass (a : Acc) (cls : ClassDecl) :
    callFields (collectClass a cls) = callFields a := by
  simp only [collectClass]
  exact foldl_acc_field callFields collectMethod callFields_collectMethod
    cls.methods a

theorem callFields_collectFunction (a : Acc) (fn : FunctionDecl) :
    callFields (collectFunction a fn) = callFields a := by
  simp only [collectFunction]
  split_ifs <;> rfl

theorem callFields_collect (sm : SourceModule) (a : Acc) :
    callFields (collect sm a) = callFields a := by
  simp only [collect]
  rw [show ∀ b : Acc, callFields { b with outgoingCallHeuristic :=
        b.outgoingCallHeuristic + countOcc outboundPats sm.fullText.toList } =
      callFields b from fun b => rfl]
  rw [foldl_acc_field callFields collectFunction callFields_collectFunction]
  rw [foldl_acc_field callFields collectClass callFields_collectClass]
  rfl

/-- The partition invariant of the outgoing-call tallies. -/
def CallBalance (a : Acc) : Prop :=
  a.callsOut_internal + a.callsOut_external = a.callsOut_total

/-- Branch equation: unresolved target (analyze.ts lines 220–224). -/
theorem processCall_unresolved (rel : String → String) (caller : String)
    (mm : ModMap) (c : CallExpr) (h : resolveCallTargetFile rel c = none) :
    processCall rel caller mm c =
      updateAt mm caller
        (fun a => { a with callsOut_total := a.callsOut_total + 1,
                           callsOut_external := a.callsOut_external + 1 }) := by
  simp only [processCall, h]
  rw [updateAt_updateAt_same]

/-- Branch equation: vendor-external target (analyze.ts lines 216–219). -/
theorem processCall_external (rel : String → String) (caller : String)
    (mm : ModMap) (c : CallExpr)
    (h : resolveCallTargetFile rel c = some "external") :
    processCall rel caller mm c =
      updateAt mm caller
        (fun a => { a with callsOut_total := a.callsOut_total + 1,
                           callsOut_external := a.callsOut_external + 1 }) := by
  simp only [processCall, h, if_true]
  rw [updateAt_updateAt_same]

/-- Branch equation: self-call target (analyze.ts lines 227–230). -/
theorem processCall_self (rel : String → String) (caller : String)
    (mm : ModMap) (c : CallExpr)
    (h : resolveCallTargetFile rel c = some caller)
    (hne : caller ≠ "external") :
    processCall rel caller mm c =
      updateAt mm caller
        (fun a => { a with callsOut_total := a.callsOut_total + 1,
                           callsOut_internal := a.callsOut_internal + 1,
                           incomingInternal := a.incomingInternal + 0 }) := by
  simp only [processCall, h, if_true]
  rw [if_neg hne, updateAt_updateAt_same]

/-- Branch equation: cross-module target (analyze.ts lines 231–243). -/
theorem processCall_cross (rel : String → String) (caller t : String)
    (mm : ModMap) (c : CallExpr)
    (h : resolveCallTargetFile rel c = some t)
    (ht : t ≠ "external") (htc : t ≠ caller) :
    processCall rel caller mm c =
      updateAt
        (updateAt mm caller
          (fun a => { a with callsOut_total := a.callsOut_total + 1,
                             callsOut_external := a.callsOut_external + 1 }))
        t (fun a => { a with incomingInternal := a.incomingInternal + 1 }) := by
  simp only [processCall, h]
  rw [if_neg ht, if_neg htc, updateAt_updateAt_same]

/-- Entry-wise invariant preservation through one call tally: it suffices
that the invariant survives the three effective per-entry transformations
(total+external bump, total+internal bump, incoming bump). -/
theorem processCall_forall (P : Acc → Prop) (rel : String → String)
    (caller : String) (mm : ModMap) (c : CallExpr)
    (hall : ∀ e ∈ mm, P e.2)
    (h1 : ∀ a, P a → P { a with callsOut_total := a.callsOut_total + 1,
                                callsOut_external := a.callsOut_external + 1 })
    (h2 : ∀ a, P a → P { a with callsOut_total := a.callsOut_total + 1,
                                callsOut_internal := a.callsOut_internal + 1,
                                incomingInternal := a.incomingInternal + 0 })
    (h3 : ∀ a, P a → P { a with incomingInternal := a.incomingInternal + 1 }) :
    ∀ e ∈ processCall rel caller mm c, P e.2 := by
  cases hres : resolveCallTargetFile rel c with
  | none =>
    rw [processCall_unresolved rel caller mm c hres]
    exact updateAt_forall P _ _ _ hall h1
  | some t =>
    by_cases ht : t = "external"
    · subst ht
      rw [processCall_external rel caller mm c hres]
      exact updateAt_forall P _ _ _ hall h1
    · by_cases htc : t = caller
      · subst htc
        rw [processCall_self rel t mm c hres ht]
        exact updateAt_forall P _ _ _ hall h2
      · rw [processCall_cross rel caller t mm c hres ht htc]
        exact updateAt_forall P _ _ _ (updateAt_forall P _ _ _ hall h1) h3

theorem pass2_forall (P : Acc → Prop) (rel : String → String)
    (corpus : List SourceModule) (mm : ModMap)
    (hall : ∀ e ∈ mm, P e.2)
    (h1 : ∀ a, P a → P { a with callsOut_total := a.callsOut_total + 1,
                                callsOut_external := a.callsOut_external + 1 })
    (h2 : ∀ a, P a → P { a with callsOut_total := a.callsOut_total + 1,
                                callsOut_internal := a.callsOut_internal + 1,
                                incomingInternal := a.incomingInternal + 0 })
    (h3 : ∀ a, P a → P { a with incomingInternal := a.incomingInternal + 1 }) :
    ∀ e ∈ pass2 rel corpus mm, P e.2 := by
  unfold pass2
  refine foldl_preserve (fun mmx => ∀ e ∈ mmx, P e.2)
    (fun mm sm => sm.calls.foldl (processCall rel sm.id) mm)
    (fun mmi sm hmmi => ?_) corpus mm hall
  exact foldl_preserve (fun mmx => ∀ e ∈ mmx, P e.2)
    (processCall rel sm.id)
    (fun mmj call hmmj => processCall_forall P rel sm.id mmj call hmmj h1 h2 h3)
    sm.calls mmi hmmi

theorem pass1_forall (P : Acc → Prop) (corpus : List SourceModule) (mm : ModMap)
    (hall : ∀ e ∈ mm, P e.2)
    (hco : ∀ sm a, P a → P (collect sm a)) :
    ∀ e ∈ pass1 corpus mm, P e.2 := by
  unfold pass1
  exact foldl_preserve (fun mmx => ∀ e ∈ mmx, P e.2)
    (fun mm sm => updateAt mm sm.id (collect sm))
    (fun mmi sm hmmi => updateAt_forall P mmi sm.id (collect sm) hmmi (hco sm))
    corpus mm hall

theorem initMap_forall (corpus : List SourceModule) :
    ∀ e ∈ initMap corpus, e.2 = Acc.init := by
  intro e he
  simp only [initMap, List.mem_map] at he
  obtain ⟨sm, _, rfl⟩ := he
  rfl

/-- Every accumulator in the fully built module map satisfies the
partition invariant and reports no incoming-external calls. -/
theorem finalMap_invariant (rel : String → String)
    (corpus : List SourceModule) :
    ∀ e ∈ pass2 rel corpus (pass1 corpus (initMap corpus)),
      CallBalance e.2 ∧ e.2.incomingExternal = 0 := by
  refine pass2_forall (fun a => CallBalance a ∧ a.incomingExternal = 0)
    rel corpus _ ?_ ?_ ?_ ?_
  · refine pass1_forall (fun a => CallBalance a ∧ a.incomingExternal = 0)
      corpus _ ?_ ?_
    · intro e he
      rw [initMap_forall corpus e he]
      exact ⟨rfl, rfl⟩
    · intro sm a ha
      have h := callFields_collect sm a
      simp only [callFields, Prod.mk.injEq] at h
      unfold CallBalance at *
      obtain ⟨h1, h2, h3, h4, h5⟩ := h
      rw [h1, h2, h3, h5]
      exact ha
  · intro a ha
    unfold CallBalance at *
    obtain ⟨hb, hz⟩ := ha
    exact ⟨by simp [hb]; omega, hz⟩
  · intro a ha
    unfold CallBalance at *
    obtain ⟨hb, hz⟩ := ha
    exact ⟨by simp; omega, hz⟩
  · intro a ha
    unfold CallBalance at *
    obtain ⟨hb, hz⟩ := ha
    exact ⟨hb, hz⟩

/-! ### Membership in the engine's result list -/

theorem mem_entriesOrder (mm : ModMap) (x : String × Acc)
    (hx : x ∈ entriesOrder mm) : x ∈ mm := by
  unfold entriesOrder at hx
  rw [List.mem_append] at hx
  rcases hx with h | h
  · rw [List.mem_insertionSort] at h
    exact List.mem_of_mem_filter h
  · exact List.mem_of_mem_filter h

theorem mem_analyzeCore {K : Type} [LinearOrder K] (sKey : ℚ → ℚ → K)
    (cfg : Config) (corpus : List SourceModule) (rel : String → String)
    (m : ModuleMetrics K) (hm : m ∈ analyzeCore sKey cfg corpus rel) :
    ∃ e ∈ pass2 rel corpus (pass1 corpus (initMap corpus)),
      m = composeModule (mergeWeights cfg.weights) sKey e.1 e.2 := by
  unfold analyzeCore sortModules at hm
  rw [List.mem_insertionSort] at hm
  unfold composedList at hm
  simp only [List.mem_map] at hm
  obtain ⟨e, he, rfl⟩ := hm
  exact ⟨e, mem_entriesOrder _ e he, rfl⟩

/-- The pipeline really does produce the two fixture records on the
two-module fixture corpus (shared by several witnesses). -/
theorem composedList_corpusW :
    composedList constKey {} corpusW relW = [mWA, mWB] := rfl

theorem analyzeCore_corpusW :
    analyzeCore constKey {} corpusW relW = [mWA, mWB] := rfl

/-! ### C9: partition identity of the outgoing-call tallies -/

/-- C9.  For every module in the result set the partition identity
`callsOut_internal + callsOut_external = callsOut_total` holds: each call
raises the total exactly once and exactly one of the two buckets once. -/
theorem calls_partition {K : Type} [LinearOrder K] (sKey : ℚ → ℚ → K)
    (cfg : Config) (corpus : List SourceModule) (rel : String → String)
    (m : ModuleMetrics K) (hm : m ∈ analyzeCore sKey cfg corpus rel) :
    m.extras.callsOut_internal + m.extras.callsOut_external =
      m.extras.callsOut_total := by
  obtain ⟨e, he, rfl⟩ := mem_analyzeCore sKey cfg corpus rel m hm
  exact (finalMap_invariant rel corpus e he).1

/-- Witness for C9 at a concrete corpus. -/
theorem calls_partition_witness :
    mWA ∈ analyzeCore constKey {} corpusW relW ∧
      mWA.extras.callsOut_internal + mWA.extras.callsOut_external =
        mWA.extras.callsOut_total := by
  have hm : mWA ∈ analyzeCore constKey {} corpusW relW := by
    rw [analyzeCore_corpusW]
    exact List.mem_cons_self mWA [mWB]
  exact ⟨hm, calls_partition constKey {} corpusW relW mWA hm⟩

/-! ### C10: the incoming-external counter is never incremented -/

/-- C10.  For every module in the result set, the `incomingExternal`
counter reported in the extras record is `0`: it starts at zero and no
pass increments it (the filtered-target branch is an explicit no-op). -/
theorem incomingExternal_zero {K : Type} [LinearOrder K] (sKey : ℚ → ℚ → K)
    (cfg : Config) (corpus : List SourceModule) (rel : String → String)
    (m : ModuleMetrics K) (hm : m ∈ analyzeCore sKey cfg corpus rel) :
    m.extras.incomingExternal = 0 := by
  obtain ⟨e, he, rfl⟩ := mem_analyzeCore sKey cfg corpus rel m hm
  exact (finalMap_invariant rel corpus e he).2

/-- Witness for C10 at a concrete corpus. -/
theorem incomingExternal_zero_witness :
    mWB ∈ analyzeCore constKey {} corpusW relW ∧
      mWB.extras.incomingExternal = 0 := by
  have hm : mWB ∈ analyzeCore constKey {} corpusW relW := by
    rw [analyzeCore_corpusW]
    exact List.mem_cons_of_mem mWA (List.mem_cons_self mWB [])
  exact ⟨hm, incomingExternal_zero constKey {} corpusW relW mWB hm⟩

/-! ### C1: the Volume and Area formulas under merged weights -/

/-- C1.  Every module of the result set has `V` and `A` computed exactly by
the weighted formulas over its raw counters, and the weight table used is,
per category, the configured override when present and the built-in default
otherwise. -/
theorem volume_area_formula {K : Type} [LinearOrder K] (sKey : ℚ → ℚ → K)
    (cfg : Config) (corpus : List SourceModule) (rel : String → String)
    (m : ModuleMetrics K) (hm : m ∈ analyzeCore sKey cfg corpus rel) :
    (m.V = (m.extras.privateMethodCount : ℚ)
          * (mergeWeights cfg.weights).privateMethod
        + ((m.extras.callsOut_internal : ℚ) + (m.extras.incomingInternal : ℚ))
          * (mergeWeights cfg.weights).internalCall
        + (m.extras.internalTypeCount : ℚ)
          * (mergeWeights cfg.weights).internalType) ∧
    (m.A = (m.extras.exportedCount : ℚ)
          * (mergeWeights cfg.weights).exportedSymbol
        + (m.extras.publicMethodCount : ℚ)
          * (mergeWeights cfg.weights).publicMethod
        + (m.extras.externalImports : ℚ)
          * (mergeWeights cfg.weights).externalImport
        + (m.extras.outgoingCallHeuristic : ℚ)
          * (mergeWeights cfg.weights).outgoingCall
        + (m.extras.callsOut_external : ℚ)
          * (mergeWeights cfg.weights).outgoingCall) ∧
    (cfg.weights = none → mergeWeights cfg.weights = DEFAULT_WEIGHTS) ∧
    (∀ o, cfg.weights = some o →
      mergeWeights cfg.weights =
        ⟨o.privateMethod.getD DEFAULT_WEIGHTS.privateMethod,
          o.internalCall.getD DEFAULT_WEIGHTS.internalCall,
          o.internalType.getD DEFAULT_WEIGHTS.internalType,
          o.exportedSymbol.getD DEFAULT_WEIGHTS.exportedSymbol,
          o.publicMethod.getD DEFAULT_WEIGHTS.publicMethod,
          o.externalImport.getD DEFAULT_WEIGHTS.externalImport,
          o.outgoingCall.getD DEFAULT_WEIGHTS.outgoingCall⟩) := by
  obtain ⟨e, _, rfl⟩ := mem_analyzeCore sKey cfg corpus rel m hm
  refine ⟨rfl, rfl, fun h => by rw [h]; rfl, fun o ho => by rw [ho]; rfl⟩

/-- Witness for C1 at a concrete corpus. -/
theorem volume_area_formula_witness :
    mWA ∈ analyzeCore constKey {} corpusW relW ∧
      mWA.V = (mWA.extras.privateMethodCount : ℚ)
          * (mergeWeights (Config.mk [] none none none none).weights).privateMethod
        + ((mWA.extras.callsOut_internal : ℚ) + (mWA.extras.incomingInternal : ℚ))
          * (mergeWeights (Config.mk [] none none none none).weights).internalCall
        + (mWA.extras.internalTypeCount : ℚ)
          * (mergeWeights (Config.mk [] none none none none).weights).internalType := by
  have hm : mWA ∈ analyzeCore constKey {} corpusW relW := by
    rw [analyzeCore_corpusW]
    exact List.mem_cons_self mWA [mWB]
  exact ⟨hm, (volume_area_formula constKey {} corpusW relW mWA hm).1⟩

/-! ### C3: cohesion bounds -/

/-- C3.  For every module of the result set, cohesion lies in `[0, 1]`; it is
exactly `1` when the module's `callsOut_total` is `0`, and
`callsOut_internal / callsOut_total` otherwise. -/
theorem cohesion_bounds {K : Type} [LinearOrder K] (sKey : ℚ → ℚ → K)
    (cfg : Config) (corpus : List SourceModule) (rel : String → String)
    (m : ModuleMetrics K) (hm : m ∈ analyzeCore sKey cfg corpus rel) :
    (0 ≤ m.cohesion ∧ m.cohesion ≤ 1) ∧
    (m.extras.callsOut_total = 0 → m.cohesion = 1) ∧
    (m.extras.callsOut_total ≠ 0 →
      m.cohesion =
        (m.extras.callsOut_internal : ℚ) / (m.extras.callsOut_total : ℚ)) := by
  obtain ⟨e, he, rfl⟩ := mem_analyzeCore sKey cfg corpus rel m hm
  have hb := (finalMap_invariant rel corpus e he).1
  unfold CallBalance at hb
  have hle : e.2.callsOut_internal ≤ e.2.callsOut_total := by omega
  have hc : (composeModule (mergeWeights cfg.weights) sKey e.1 e.2).cohesion =
      if e.2.callsOut_total = 0 then (1 : ℚ)
      else (e.2.callsOut_internal : ℚ) / (e.2.callsOut_total : ℚ) := rfl
  have hx : (composeModule (mergeWeights cfg.weights) sKey e.1 e.2).extras =
      e.2 := rfl
  rw [hc, hx]
  by_cases h0 : e.2.callsOut_total = 0
  · rw [if_pos h0]
    exact ⟨⟨by norm_num, le_refl 1⟩, fun _ => rfl, fun hne => absurd h0 hne⟩
  · rw [if_neg h0]
    have hpos : (0 : ℚ) < (e.2.callsOut_total : ℚ) := by
      exact_mod_cast Nat.pos_of_ne_zero h0
    refine ⟨⟨div_nonneg (Nat.cast_nonneg _) (Nat.cast_nonneg _), ?_⟩,
      fun h => absurd h h0, fun _ => rfl⟩
    rw [div_le_one hpos]
    exact_mod_cast hle

/-- Witness for C3 at a concrete corpus. -/
theorem cohesion_bounds_witness :
    mWB ∈ analyzeCore constKey {} corpusW relW ∧
      (0 ≤ mWB.cohesion ∧ mWB.cohesion ≤ 1) := by
  have hm : mWB ∈ analyzeCore constKey {} corpusW relW := by
    rw [analyzeCore_corpusW]
    exact List.mem_cons_of_mem mWA (List.mem_cons_self mWB [])
  exact ⟨hm, (cohesion_bounds constKey {} corpusW relW mWB hm).1⟩

/-! ### Key (discovery order) preservation through the passes -/

theorem keys_processCall (rel : String → String) (caller : String)
    (mm : ModMap) (c : CallExpr) :
    (processCall rel caller mm c).map (fun e => e.1) =
      mm.map (fun e => e.1) := by
  cases hres : resolveCallTargetFile rel c with
  | none => rw [processCall_unresolved rel caller mm c hres, keys_updateAt]
  | some t =>
    by_cases ht : t = "external"
    · subst ht
      rw [processCall_external rel caller mm c hres, keys_updateAt]
    · by_cases htc : t = caller
      · subst htc
        rw [processCall_self rel t mm c hres ht, keys_updateAt]
      · rw [processCall_cross rel caller t mm c hres ht htc, keys_updateAt,
          keys_updateAt]

theorem keys_pass1 (corpus : List SourceModule) (mm : ModMap) :
    (pass1 corpus mm).map (fun e => e.1) = mm.map (fun e => e.1) := by
  unfold pass1
  exact foldl_preserve
    (fun mmx => mmx.map (fun e => e.1) = mm.map (fun e => e.1))
    (fun mm sm => updateAt mm sm.id (collect sm))
    (fun mmi sm hmmi => by
      show (updateAt mmi sm.id (collect sm)).map (fun e => e.1) =
        mm.map (fun e => e.1)
      rw [keys_updateAt]
      exact hmmi)
    corpus mm rfl

theorem keys_pass2 (rel : String → String) (corpus : List SourceModule)
    (mm : ModMap) :
    (pass2 rel corpus mm).map (fun e => e.1) = mm.map (fun e => e.1) := by
  unfold pass2
  refine foldl_preserve
    (fun mmx => mmx.map (fun e => e.1) = mm.map (fun e => e.1))
    (fun mm sm => sm.calls.foldl (processCall rel sm.id) mm)
    (fun mmi sm hmmi => ?_) corpus mm rfl
  refine foldl_preserve
    (fun mmx => mmx.map (fun e => e.1) = mm.map (fun e => e.1))
    (processCall rel sm.id)
    (fun mmj call hmmj => ?_) sm.calls mmi hmmi
  show (processCall rel sm.id mmj call).map (fun e => e.1) =
    mm.map (fun e => e.1)
  rw [keys_processCall]
  exact hmmj

/-! ### C4: the result sequence is stably sorted ascending by sphericity -/

/-- A map none of whose keys is array-index-like enumerates in pure
insertion order. -/
theorem entriesOrder_of_no_index (mm : ModMap)
    (h : ∀ e ∈ mm, isArrayIndexKey e.1 = false) : entriesOrder mm = mm := by
  unfold entriesOrder
  have h1 : mm.filter (fun e => isArrayIndexKey e.1) = [] := by
    rw [List.filter_eq_nil_iff]
    intro a ha
    simp [h a ha]
  have h2 : mm.filter (fun e => !isArrayIndexKey e.1) = mm := by
    rw [List.filter_eq_self]
    intro a ha
    simp [h a ha]
  rw [h1, h2]
  rfl

/-- C4 counterexample (to the claim as stated): a corpus that discovers an
ordinary module before a module whose relative path is the array-index-like
string "7" (an extensionless digit-named file matched by a configured glob).
`Object.entries` lists the "7" entry first, so although both modules have
equal sphericity, the engine returns them in the opposite of discovery
order. -/
theorem discovery_order_cex :
    corpusIdx.map (fun sm => sm.id) = ["src/wa.ts", "7"] ∧
    isArrayIndexKey "7" = true ∧
    mI7.s = mWA.s ∧
    (composedList constKey {} corpusIdx relW).map (fun m => m.id) =
      ["7", "src/wa.ts"] ∧
    (analyzeCore constKey {} corpusIdx relW).map (fun m => m.id) =
      ["7", "src/wa.ts"] :=
  ⟨rfl, rfl, rfl, rfl, rfl⟩

/-- C4 (amended).  The engine's result sequence is non-decreasing in
sphericity for every pair, it is a permutation of the composed (pre-sort)
list, and any two records with equal sphericity keep their pre-sort relative
order (the sort is stable); the pre-sort list is the module map in
`Object.entries` enumeration order, which coincides with corpus discovery
order whenever no module's relative path is an array-index-like string. -/
theorem results_sorted_stable {K : Type} [LinearOrder K] (sKey : ℚ → ℚ → K)
    (cfg : Config) (corpus : List SourceModule) (rel : String → String)
    (a b : ModuleMetrics K) (hab : a.s = b.s)
    (hsub : List.Sublist [a, b] (composedList sKey cfg corpus rel)) :
    List.Pairwise (fun x y : ModuleMetrics K => x.s ≤ y.s)
      (analyzeCore sKey cfg corpus rel) ∧
    List.Sublist [a, b] (analyzeCore sKey cfg corpus rel) ∧
    List.Perm (analyzeCore sKey cfg corpus rel)
      (composedList sKey cfg corpus rel) ∧
    ((∀ sm ∈ corpus, isArrayIndexKey sm.id = false) →
      (composedList sKey cfg corpus rel).map (fun m => m.id) =
        corpus.map (fun sm => sm.id)) := by
  haveI ht : IsTrans (ModuleMetrics K) (fun x y => x.s ≤ y.s) :=
    ⟨fun x y z hxy hyz => le_trans hxy hyz⟩
  haveI hto : IsTotal (ModuleMetrics K) (fun x y => x.s ≤ y.s) :=
    ⟨fun x y => le_total x.s y.s⟩
  have hkeys : (pass2 rel corpus (pass1 corpus (initMap corpus))).map
      (fun e => e.1) = corpus.map (fun sm => sm.id) := by
    rw [keys_pass2, keys_pass1]
    unfold initMap
    rw [List.map_map]
    rfl
  refine ⟨?_, ?_, ?_, ?_⟩
  · exact List.sorted_insertionSort (fun x y => x.s ≤ y.s)
      (composedList sKey cfg corpus rel)
  · exact List.pair_sublist_insertionSort (le_of_eq hab) hsub
  · exact List.perm_insertionSort (fun x y => x.s ≤ y.s)
      (composedList sKey cfg corpus rel)
  · intro hno
    have hall : ∀ e ∈ pass2 rel corpus (pass1 corpus (initMap corpus)),
        isArrayIndexKey e.1 = false := by
      intro e he
      have hin : e.1 ∈ corpus.map (fun sm => sm.id) := by
        rw [← hkeys]
        exact List.mem_map_of_mem (fun e => e.1) he
      obtain ⟨sm, hsm, heq⟩ := List.mem_map.mp hin
      rw [← heq]
      exact hno sm hsm
    show ((entriesOrder
        (pass2 rel corpus (pass1 corpus (initMap corpus)))).map
        (fun e => composeModule (mergeWeights cfg.weights) sKey e.1 e.2)).map
        (fun m => m.id) = corpus.map (fun sm => sm.id)
    rw [entriesOrder_of_no_index _ hall, List.map_map]
    have : ((fun m : ModuleMetrics K => m.id) ∘
        fun e : String × Acc =>
          composeModule (mergeWeights cfg.weights) sKey e.1 e.2) =
        fun e : String × Acc => e.1 := rfl
    rw [this]
    exact hkeys

/-- Witness for C4 at a concrete corpus with an equal-sphericity pair and
no array-index-like path. -/
theorem results_sorted_stable_witness :
    (mWA.s = mWB.s ∧
      List.Sublist [mWA, mWB] (composedList constKey {} corpusW relW) ∧
      (∀ sm ∈ corpusW, isArrayIndexKey sm.id = false)) ∧
    List.Pairwise (fun x y : ModuleMetrics ℕ => x.s ≤ y.s)
      (analyzeCore constKey {} corpusW relW) ∧
    List.Sublist [mWA, mWB] (analyzeCore constKey {} corpusW relW) ∧
    (composedList constKey {} corpusW relW).map (fun m => m.id) =
      corpusW.map (fun sm => sm.id) := by
  have hab : mWA.s = mWB.s := rfl
  have hsub : List.Sublist [mWA, mWB] (composedList constKey {} corpusW relW) := by
    rw [composedList_corpusW]
  have hno : ∀ sm ∈ corpusW, isArrayIndexKey sm.id = false := by decide
  have h := results_sorted_stable constKey {} corpusW relW mWA mWB hab hsub
  exact ⟨⟨hab, hsub, hno⟩, h.1, h.2.1, h.2.2.2 hno⟩


/-! ### Field-keeping lookups -/

theorem findAcc_updateAt_keep {γ : Type} (g : Acc → γ) (mm : ModMap)
    (k : String) (f : Acc → Acc) (q : String) (hf : ∀ a, g (f a) = g a) :
    (findAcc (updateAt mm k f) q).map g = (findAcc mm q).map g := by
  by_cases h : q = k
  · subst h
    rw [findAcc_updateAt_self]
    cases findAcc mm q with
    | none => rfl
    | some a => simp [hf]
  · rw [findAcc_updateAt_ne mm k q f h]

/-- No branch of the per-call tally changes `outgoingCallHeuristic`. -/
theorem heur_processCall (rel : String → String) (caller : String)
    (mm : ModMap) (c : CallExpr) (k : String) :
    (findAcc (processCall rel caller mm c) k).map Acc.outgoingCallHeuristic =
      (findAcc mm k).map Acc.outgoingCallHeuristic := by
  cases hres : resolveCallTargetFile rel c with
  | none =>
    rw [processCall_unresolved rel caller mm c hres]
    exact findAcc_updateAt_keep Acc.outgoingCallHeuristic mm caller _ k
      (fun x => rfl)
  | some t =>
    by_cases ht : t = "external"
    · subst ht
      rw [processCall_external rel caller mm c hres]
      exact findAcc_updateAt_keep Acc.outgoingCallHeuristic mm caller _ k
        (fun x => rfl)
    · by_cases htc : t = caller
      · subst htc
        rw [processCall_self rel t mm c hres ht]
        exact findAcc_updateAt_keep Acc.outgoingCallHeuristic mm t _ k
          (fun x => rfl)
      · rw [processCall_cross rel caller t mm c hres ht htc]
        refine Eq.trans
          (findAcc_updateAt_keep Acc.outgoingCallHeuristic _ t
            (fun a => { a with incomingInternal := a.incomingInternal + 1 })
            k (fun x => rfl)) ?_
        exact findAcc_updateAt_keep Acc.outgoingCallHeuristic mm caller _ k
          (fun x => rfl)

/-- Pass 2 as a whole keeps `outgoingCallHeuristic` at every key. -/
theorem heur_pass2 (rel : String → String) (corpus : List SourceModule)
    (mm : ModMap) (k : String) :
    (findAcc (pass2 rel corpus mm) k).map Acc.outgoingCallHeuristic =
      (findAcc mm k).map Acc.outgoingCallHeuristic := by
  unfold pass2
  refine foldl_preserve
    (fun mmx => (findAcc mmx k).map Acc.outgoingCallHeuristic =
      (findAcc mm k).map Acc.outgoingCallHeuristic)
    (fun mm sm => sm.calls.foldl (processCall rel sm.id) mm)
    (fun mmi sm hmmi => ?_) corpus mm rfl
  refine foldl_preserve
    (fun mmx => (findAcc mmx k).map Acc.outgoingCallHeuristic =
      (findAcc mm k).map Acc.outgoingCallHeuristic)
    (processCall rel sm.id)
    (fun mmj call hmmj => ?_) sm.calls mmi hmmi
  show (findAcc (processCall rel sm.id mmj call) k).map
      Acc.outgoingCallHeuristic =
    (findAcc mm k).map Acc.outgoingCallHeuristic
  rw [heur_processCall]
  exact hmmj

/-- A key outside a corpus slice is untouched by its pass-1 fold. -/
theorem findAcc_pass1_notmem (corpus : List SourceModule) (mm : ModMap)
    (k : String) (hk : k ∉ corpus.map (fun x => x.id)) :
    findAcc (pass1 corpus mm) k = findAcc mm k := by
  induction corpus generalizing mm with
  | nil => rfl
  | cons c rest ih =>
    rw [show pass1 (c :: rest) mm =
      pass1 rest (updateAt mm c.id (collect c)) from rfl]
    rw [List.map_cons, List.mem_cons] at hk
    push_neg at hk
    rw [ih _ (fun h => hk.2 h), findAcc_updateAt_ne _ _ _ _ hk.1]

/-- A fresh map holds `Acc.init` under every corpus module's id. -/
theorem findAcc_initMap (corpus : List SourceModule) (sm : SourceModule)
    (hsm : sm ∈ corpus) :
    findAcc (initMap corpus) sm.id = some Acc.init := by
  induction corpus with
  | nil => cases hsm
  | cons c rest ih =>
    rw [show initMap (c :: rest) = (c.id, Acc.init) :: initMap rest from rfl,
      findAcc_cons]
    by_cases h : c.id = sm.id
    · rw [if_pos h]
    · rw [if_neg h]
      rcases List.mem_cons.mp hsm with rfl | hsm2
      · exact absurd rfl h
      · exact ih hsm2

/-- With duplicate-free module ids, pass 1 applies `collect` to a module's
fresh accumulator exactly once. -/
theorem findAcc_pass1 (corpus : List SourceModule) (mm : ModMap)
    (sm : SourceModule) (hn : (corpus.map (fun x => x.id)).Nodup)
    (hsm : sm ∈ corpus) (hmm : findAcc mm sm.id = some Acc.init) :
    findAcc (pass1 corpus mm) sm.id = some (collect sm Acc.init) := by
  induction corpus generalizing mm with
  | nil => cases hsm
  | cons c rest ih =>
    rw [show pass1 (c :: rest) mm =
      pass1 rest (updateAt mm c.id (collect c)) from rfl]
    rw [List.map_cons, List.nodup_cons] at hn
    rcases List.mem_cons.mp hsm with rfl | hsm2
    · rw [findAcc_pass1_notmem rest _ sm.id hn.1, findAcc_updateAt_self, hmm]
      rfl
    · have hne : sm.id ≠ c.id := fun h =>
        hn.1 (h ▸ List.mem_map.mpr ⟨sm, hsm2, rfl⟩)
      refine ih _ hn.2 hsm2 ?_
      rw [findAcc_updateAt_ne _ _ _ _ hne]
      exact hmm

/-! ### C8: the outbound-call heuristic double-counts by design -/

theorem heur_collectMethod (a : Acc) (m : MethodDecl) :
    (collectMethod a m).outgoingCallHeuristic =
      a.outgoingCallHeuristic + (if bodyHasOutbound m.bodyText then 1 else 0) := by
  simp only [collectMethod]
  split_ifs <;> rfl

theorem heur_collectFunction (a : Acc) (fn : FunctionDecl) :
    (collectFunction a fn).outgoingCallHeuristic =
      a.outgoingCallHeuristic + (if bodyHasOutbound fn.bodyText then 1 else 0) := by
  simp only [collectFunction]
  split_ifs <;> rfl

theorem heur_foldl_methods (ms : List MethodDecl) (a : Acc) :
    (ms.foldl collectMethod a).outgoingCallHeuristic =
      a.outgoingCallHeuristic + ms.countP (fun m => bodyHasOutbound m.bodyText) := by
  induction ms generalizing a with
  | nil => rfl
  | cons m t ih =>
    rw [List.foldl_cons, ih, heur_collectMethod, List.countP_cons]
    split_ifs <;> omega

theorem heur_collectClass (a : Acc) (cls : ClassDecl) :
    (collectClass a cls).outgoingCallHeuristic =
      a.outgoingCallHeuristic +
        cls.methods.countP (fun m => bodyHasOutbound m.bodyText) := by
  simp only [collectClass]
  exact heur_foldl_methods cls.methods a

theorem heur_foldl_classes (cs : List ClassDecl) (a : Acc) :
    (cs.foldl collectClass a).outgoingCallHeuristic =
      a.outgoingCallHeuristic +
        (cs.map (fun cls =>
          cls.methods.countP (fun m => bodyHasOutbound m.bodyText))).sum := by
  induction cs generalizing a with
  | nil => rfl
  | cons cls t ih =>
    rw [List.foldl_cons, ih, heur_collectClass, List.map_cons, List.sum_cons]
    omega

theorem heur_foldl_functions (fs : List FunctionDecl) (a : Acc) :
    (fs.foldl collectFunction a).outgoingCallHeuristic =
      a.outgoingCallHeuristic +
        fs.countP (fun fn => bodyHasOutbound fn.bodyText) := by
  induction fs generalizing a with
  | nil => rfl
  | cons fn t ih =>
    rw [List.foldl_cons, ih, heur_collectFunction, List.countP_cons]
    split_ifs <;> omega

/-- C8.  The collector's `outgoingCallHeuristic` is the number of class-method
bodies matching the outbound alternation (one per matching body), plus the
number of matching top-level-function bodies, plus the count of every literal
occurrence of the alternation in the module's whole raw text — so a construct
that sits in a scanned body and also appears in the raw text is counted
twice; the call-graph pass never changes the counter afterwards, so for a
duplicate-free corpus the final per-module value is exactly this sum. -/
theorem heuristic_double_count (sm : SourceModule) (a : Acc) :
    ((collect sm a).outgoingCallHeuristic =
      a.outgoingCallHeuristic
        + ((sm.classes.map (fun cls =>
              cls.methods.countP (fun m => bodyHasOutbound m.bodyText))).sum
          + sm.functions.countP (fun fn => bodyHasOutbound fn.bodyText))
        + countOcc outboundPats sm.fullText.toList) ∧
    (∀ (rel : String → String) (caller : String) (mm : ModMap) (c : CallExpr)
        (k : String),
      (findAcc (processCall rel caller mm c) k).map Acc.outgoingCallHeuristic =
        (findAcc mm k).map Acc.outgoingCallHeuristic) ∧
    (∀ (rel : String → String) (corpus : List SourceModule),
      (corpus.map (fun x => x.id)).Nodup → sm ∈ corpus →
      (findAcc (pass2 rel corpus (pass1 corpus (initMap corpus))) sm.id).map
          Acc.outgoingCallHeuristic =
        some (((sm.classes.map (fun cls =>
              cls.methods.countP (fun m => bodyHasOutbound m.bodyText))).sum
          + sm.functions.countP (fun fn => bodyHasOutbound fn.bodyText))
          + countOcc outboundPats sm.fullText.toList)) := by
  have hcol : ∀ b : Acc, (collect sm b).outgoingCallHeuristic =
      b.outgoingCallHeuristic
        + ((sm.classes.map (fun cls =>
            cls.methods.countP (fun m => bodyHasOutbound m.bodyText))).sum
          + sm.functions.countP (fun fn => bodyHasOutbound fn.bodyText))
        + countOcc outboundPats sm.fullText.toList := by
    intro b
    show (sm.functions.foldl collectFunction
        (sm.classes.foldl collectClass
          { b with exportedCount := sm.exportedNames.length,
                   externalImports :=
                     (sm.importSpecifiers.filter isExternalImport).length
            })).outgoingCallHeuristic
        + countOcc outboundPats sm.fullText.toList = _
    rw [heur_foldl_functions, heur_foldl_classes]
    show b.outgoingCallHeuristic + _ + _ + _ = _
    omega
  refine ⟨hcol a, fun rel caller mm c k => heur_processCall rel caller mm c k,
    fun rel corpus hn hsm => ?_⟩
  rw [heur_pass2, findAcc_pass1 corpus (initMap corpus) sm hn hsm
    (findAcc_initMap corpus sm hsm)]
  show some ((collect sm Acc.init).outgoingCallHeuristic) = _
  rw [hcol Acc.init, show Acc.init.outgoingCallHeuristic = 0 from rfl,
    Nat.zero_add]

/-- Witness for C8 at a concrete duplicate-free corpus. -/
theorem heuristic_double_count_witness :
    (corpusW.map (fun x => x.id)).Nodup ∧ smWA ∈ corpusW ∧
      (findAcc (pass2 relW corpusW (pass1 corpusW (initMap corpusW)))
          smWA.id).map Acc.outgoingCallHeuristic =
        some (((smWA.classes.map (fun cls =>
              cls.methods.countP (fun m => bodyHasOutbound m.bodyText))).sum
          + smWA.functions.countP (fun fn => bodyHasOutbound fn.bodyText))
          + countOcc outboundPats smWA.fullText.toList) := by
  have hn : (corpusW.map (fun x => x.id)).Nodup := by decide
  have hsm : smWA ∈ corpusW := by decide
  exact ⟨hn, hsm,
    (heuristic_double_count smWA Acc.init).2.2 relW corpusW hn hsm⟩

/-- The engine on the one-module fixture corpus yields exactly the fixture
record. -/
theorem analyze_singleW : analyze {} [smWA] relW = [mWR] := rfl

/-! ### C2: sphericity is defined and finite -/

/-- Compose-level core of the sphericity claim, for any exponent. -/
theorem sphericity_compose (w : Weights) (alpha : ℝ) (file : String)
    (data : Acc) (hw : w.AllPos) :
    0 < aForS (composeModule w (sphericityR alpha) file data).A ∧
    ((composeModule w (sphericityR alpha) file data).A ≠ 0 →
      aForS (composeModule w (sphericityR alpha) file data).A =
        (composeModule w (sphericityR alpha) file data).A) ∧
    0 < ((aForS (composeModule w (sphericityR alpha) file data).A : ℝ) ^ alpha) ∧
    (composeModule w (sphericityR alpha) file data).s *
        ((aForS (composeModule w (sphericityR alpha) file data).A : ℝ) ^ alpha) =
      ((composeModule w (sphericityR alpha) file data).V : ℝ) := by
  obtain ⟨h1, h2, h3, h4, h5, h6, h7⟩ := hw
  have hA : (0 : ℚ) ≤ (composeModule w (sphericityR alpha) file data).A := by
    show (0 : ℚ) ≤ (data.exportedCount : ℚ) * w.exportedSymbol
      + (data.publicMethodCount : ℚ) * w.publicMethod
      + (data.externalImports : ℚ) * w.externalImport
      + (data.outgoingCallHeuristic : ℚ) * w.outgoingCall
      + (data.callsOut_external : ℚ) * w.outgoingCall
    have t1 := mul_nonneg (Nat.cast_nonneg data.exportedCount) h4.le
    have t2 := mul_nonneg (Nat.cast_nonneg data.publicMethodCount) h5.le
    have t3 := mul_nonneg (Nat.cast_nonneg data.externalImports) h6.le
    have t4 := mul_nonneg (Nat.cast_nonneg data.outgoingCallHeuristic) h7.le
    have t5 := mul_nonneg (Nat.cast_nonneg data.callsOut_external) h7.le
    linarith
  have hbase : 0 < aForS (composeModule w (sphericityR alpha) file data).A := by
    unfold aForS
    split_ifs with h0
    · norm_num [epsilonQ]
    · exact lt_of_le_of_ne hA (Ne.symm h0)
  have hpow : 0 <
      ((aForS (composeModule w (sphericityR alpha) file data).A : ℝ) ^ alpha) :=
    Real.rpow_pos_of_pos (by exact_mod_cast hbase) alpha
  refine ⟨hbase, ?_, hpow, ?_⟩
  · intro h0
    unfold aForS
    rw [if_neg h0]
  · have hs : (composeModule w (sphericityR alpha) file data).s =
        ((composeModule w (sphericityR alpha) file data).V : ℝ) /
          ((aForS (composeModule w (sphericityR alpha) file data).A : ℝ) ^ alpha) :=
      rfl
    rw [hs]
    exact div_mul_cancel₀ _ hpow.ne'

/-- C2.  For every module of the engine's (real-valued) result list, under
positive configured weights and a positive exponent: the floor-substituted
area base is strictly positive and equals the raw area whenever that is
nonzero, the sphericity denominator `base ^ alpha` is strictly positive, and
the stored sphericity is the genuine quotient of `V` by that positive
denominator — a well-defined, finite real number. -/
theorem sphericity_defined (cfg : Config) (corpus : List SourceModule)
    (rel : String → String) (m : ModuleMetrics ℝ)
    (hm : m ∈ analyze cfg corpus rel)
    (hw : (mergeWeights cfg.weights).AllPos)
    (halpha : (0 : ℝ) < ((alphaOf cfg : ℚ) : ℝ)) :
    0 < aForS m.A ∧
    (m.A ≠ 0 → aForS m.A = m.A) ∧
    0 < ((aForS m.A : ℝ) ^ ((alphaOf cfg : ℚ) : ℝ)) ∧
    m.s * ((aForS m.A : ℝ) ^ ((alphaOf cfg : ℚ) : ℝ)) = (m.V : ℝ) := by
  obtain ⟨e, _, rfl⟩ := mem_analyzeCore
    (fun v aSubst => sphericityR ((alphaOf cfg : ℚ) : ℝ) v aSubst)
    cfg corpus rel m hm
  exact sphericity_compose (mergeWeights cfg.weights)
    ((alphaOf cfg : ℚ) : ℝ) e.1 e.2 hw

/-- Witness for C2 on a one-module corpus at default weights and exponent. -/
theorem sphericity_defined_witness :
    mWR ∈ analyze {} [smWA] relW ∧
      (mergeWeights ({} : Config).weights).AllPos ∧
      (0 : ℝ) < ((alphaOf {} : ℚ) : ℝ) ∧
      0 < aForS mWR.A := by
  have hm : mWR ∈ analyze {} [smWA] relW := by
    rw [analyze_singleW]
    exact List.mem_singleton_self mWR
  have hw : (mergeWeights ({} : Config).weights).AllPos := by
    show DEFAULT_WEIGHTS.AllPos
    refine ⟨?_, ?_, ?_, ?_, ?_, ?_, ?_⟩ <;> norm_num [DEFAULT_WEIGHTS]
  have ha : (0 : ℝ) < ((alphaOf {} : ℚ) : ℝ) := by
    show (0 : ℝ) < ((1.8 : ℚ) : ℝ)
    norm_num
  exact ⟨hm, hw, ha, (sphericity_defined {} [smWA] relW mWR hm hw ha).1⟩

/-! ### C5: tally cases of one processed call -/

/-- C5 (amended).  For a processed call: the caller's total always rises by
one; the external bucket rises by one exactly when the resolver yielded the
vendor marker "external", nothing, or a project path distinct from both the
caller and the literal marker string; for that last (cross-module) case a
tracked target's `incomingInternal` rises by one, and an untracked target
leaves every module's `incomingInternal` unchanged. -/
theorem call_tally_cases (rel : String → String) (caller : String)
    (mm : ModMap) (c : CallExpr) (a : Acc)
    (hc : findAcc mm caller = some a) :
    (findAcc (processCall rel caller mm c) caller).map Acc.callsOut_total =
      some (a.callsOut_total + 1) ∧
    ((resolveCallTargetFile rel c = some "external" ∨
        resolveCallTargetFile rel c = none ∨
        (∃ t, resolveCallTargetFile rel c = some t ∧ t ≠ "external" ∧
          t ≠ caller)) →
      (findAcc (processCall rel caller mm c) caller).map Acc.callsOut_external =
        some (a.callsOut_external + 1)) ∧
    (∀ t, resolveCallTargetFile rel c = some t → t ≠ "external" → t = caller →
      (findAcc (processCall rel caller mm c) caller).map Acc.callsOut_external =
        some a.callsOut_external) ∧
    (∀ t, resolveCallTargetFile rel c = some t → t ≠ "external" → t ≠ caller →
      (∀ b, findAcc mm t = some b →
        findAcc (processCall rel caller mm c) t =
          some { b with incomingInternal := b.incomingInternal + 1 }) ∧
      (findAcc mm t = none →
        ∀ k, (findAcc (processCall rel caller mm c) k).map Acc.incomingInternal =
          (findAcc mm k).map Acc.incomingInternal)) := by
  refine ⟨?_, ?_, ?_, ?_⟩
  · cases hres : resolveCallTargetFile rel c with
    | none =>
      rw [processCall_unresolved rel caller mm c hres, findAcc_updateAt_self, hc]
      rfl
    | some t =>
      by_cases ht : t = "external"
      · subst ht
        rw [processCall_external rel caller mm c hres, findAcc_updateAt_self, hc]
        rfl
      · by_cases htc : t = caller
        · subst htc
          rw [processCall_self rel t mm c hres ht, findAcc_updateAt_self, hc]
          rfl
        · rw [processCall_cross rel caller t mm c hres ht htc,
            findAcc_updateAt_ne _ _ _ _ (fun h => htc h.symm),
            findAcc_updateAt_self, hc]
          rfl
  · intro hdis
    rcases hdis with hres | hres | ⟨t, hres, ht, htc⟩
    · rw [processCall_external rel caller mm c hres, findAcc_updateAt_self, hc]
      rfl
    · rw [processCall_unresolved rel caller mm c hres, findAcc_updateAt_self, hc]
      rfl
    · rw [processCall_cross rel caller t mm c hres ht htc,
        findAcc_updateAt_ne _ _ _ _ (fun h => htc h.symm),
        findAcc_updateAt_self, hc]
      rfl
  · intro t hres ht heq
    subst heq
    rw [processCall_self rel t mm c hres ht, findAcc_updateAt_self, hc]
    rfl
  · intro t hres ht htc
    constructor
    · intro b hb
      rw [processCall_cross rel caller t mm c hres ht htc,
        findAcc_updateAt_self, findAcc_updateAt_ne _ _ _ _ htc, hb]
      rfl
    · intro hnone k
      rw [processCall_cross rel caller t mm c hres ht htc]
      by_cases hk : k = t
      · subst hk
        rw [findAcc_updateAt_self, findAcc_updateAt_ne _ _ _ _ htc, hnone]
        rfl
      · rw [findAcc_updateAt_ne _ _ _ _ hk]
        exact findAcc_updateAt_keep Acc.incomingInternal mm caller _ k
          (fun x => rfl)

/-- C5 counterexample (to the unamended claim): a corpus may track a module
whose project-relative path is the literal marker string "external"; a call
from another module resolving (through a non-vendor declaration) to that
tracked module is a cross-module call to a tracked target, yet its
`incomingInternal` stays 0 because the code conflates the path with the
vendor marker. -/
theorem call_tally_sentinel_cex :
    isNodeModuleFile "external" = false ∧
    resolveCallTargetFile relW (callW "external") = some "external" ∧
    ("external" : String) ≠ "src/wa.ts" ∧
    findAcc mmCex "external" = some Acc.init ∧
    (findAcc (processCall relW "src/wa.ts" mmCex (callW "external"))
        "external").map Acc.incomingInternal = some 0 := by
  refine ⟨rfl, rfl, ?_, rfl, ?_⟩
  · decide
  · rfl

/-- Witness for C5 at a concrete tracked cross-module call. -/
theorem call_tally_cases_witness :
    findAcc mmW "src/wa.ts" = some Acc.init ∧
      (findAcc (processCall relW "src/wa.ts" mmW (callW "src/wb.ts"))
          "src/wa.ts").map Acc.callsOut_total =
        some (Acc.init.callsOut_total + 1) := by
  have hc : findAcc mmW "src/wa.ts" = some Acc.init := rfl
  exact ⟨hc,
    (call_tally_cases relW "src/wa.ts" mmW (callW "src/wb.ts") Acc.init hc).1⟩

/-! ### C6: a self-call touches only the caller's internal tallies -/

/-- C6 (amended).  For a caller whose path is not the literal marker string
"external", a call resolving to the caller's own path leaves every module's
`incomingInternal` unchanged, leaves every other module's entry unchanged,
and bumps exactly the caller's `callsOut_internal` and `callsOut_total`. -/
theorem selfcall_frame (rel : String → String) (caller : String)
    (mm : ModMap) (c : CallExpr) (hne : caller ≠ "external")
    (hres : resolveCallTargetFile rel c = some caller) :
    (∀ k, (findAcc (processCall rel caller mm c) k).map Acc.incomingInternal =
      (findAcc mm k).map Acc.incomingInternal) ∧
    (∀ k, k ≠ caller → findAcc (processCall rel caller mm c) k = findAcc mm k) ∧
    (∀ a, findAcc mm caller = some a →
      findAcc (processCall rel caller mm c) caller =
        some { a with callsOut_total := a.callsOut_total + 1,
                      callsOut_internal := a.callsOut_internal + 1 }) := by
  rw [processCall_self rel caller mm c hres hne]
  refine ⟨?_, ?_, ?_⟩
  · intro k
    exact findAcc_updateAt_keep Acc.incomingInternal mm caller _ k (fun x => rfl)
  · intro k hk
    exact findAcc_updateAt_ne mm caller k _ hk
  · intro a ha
    rw [findAcc_updateAt_self, ha]
    simp

/-- C6 counterexample (to the unamended claim): a call that resolves to the
caller's own module path, when that path is the literal string "external",
is booked as an external call: `callsOut_internal` stays 0 and
`callsOut_external` becomes 1. -/
theorem selfcall_sentinel_cex :
    isNodeModuleFile "external" = false ∧
    resolveCallTargetFile relW (callW "external") = some "external" ∧
    findAcc (processCall relW "external" mmExt (callW "external")) "external" =
      some { Acc.init with callsOut_total := 1, callsOut_external := 1 } := by
  exact ⟨rfl, rfl, rfl⟩

/-- Witness for C6 at a concrete self-call. -/
theorem selfcall_frame_witness :
    ("src/wa.ts" : String) ≠ "external" ∧
    resolveCallTargetFile relW (callW "src/wa.ts") = some "src/wa.ts" ∧
    (∀ k, (findAcc (processCall relW "src/wa.ts" mmW (callW "src/wa.ts")) k).map
        Acc.incomingInternal = (findAcc mmW k).map Acc.incomingInternal) := by
  have hne : ("src/wa.ts" : String) ≠ "external" := by decide
  have hres : resolveCallTargetFile relW (callW "src/wa.ts") =
      some "src/wa.ts" := rfl
  exact ⟨hne, hres,
    (selfcall_frame relW "src/wa.ts" mmW (callW "src/wa.ts") hne hres).1⟩

/-! ### C7: the member-access fallback is one level, not left-most -/

/-- The declaration walk yields nothing exactly when no declaration carries
a source file (analyze.ts lines 93–106). -/
theorem firstDeclResult_eq_none (rel : String → String) (ds : List Decl) :
    firstDeclResult rel ds = none ↔ ∀ d ∈ ds, d.sourceFile = none := by
  induction ds with
  | nil => simp [firstDeclResult]
  | cons d t ih =>
    cases hd : d.sourceFile with
    | none =>
      rw [show firstDeclResult rel (d :: t) = firstDeclResult rel t from by
        simp only [firstDeclResult, hd]]
      rw [ih]
      constructor
      · intro h e he
        rcases List.mem_cons.mp he with rfl | he2
        · exact hd
        · exact h e he2
      · intro h e he
        exact h e (List.mem_cons_of_mem d he)
    | some fp =>
      rw [show firstDeclResult rel (d :: t) =
          (if isNodeModuleFile fp then some "external" else some (rel fp))
        from by
          simp only [firstDeclResult, hd]]
      constructor
      · intro h
        split_ifs at h
      · intro h
        have hcon := h d (List.mem_cons_self d t)
        rw [hd] at hcon
        exact Option.noConfusion hcon

/-- C7 counterexample (to the claim as stated), in two parts.  First, for the
chain `a.b.c(...)` in which only the left-most identifier `a` carries a
symbol, the left-most fallback demanded by the claim would resolve to that
symbol, but the code's fallback reads only the symbol of the immediate
object expression `a.b` (which has none), so the call is classified
unresolved.  Second, the claim's "only classifies the call as unresolved when
that fallback also yields no symbol" is likewise false: a fallback that
yields a symbol with an empty declaration list still leaves the call
unresolved. -/
theorem leftmost_fallback_cex :
    Callee.symbolOf calleeChain = none ∧
    (leftmostExpr calleeChain).symbolOf = some symLeft ∧
    resolveSym calleeChain = none ∧
    resolveCallTargetFile relW ⟨calleeChain⟩ = none ∧
    resolveSym calleeEmptyDecls = some symEmpty ∧
    resolveCallTargetFile relW ⟨calleeEmptyDecls⟩ = none :=
  ⟨rfl, rfl, rfl, rfl, rfl, rfl⟩

/-- C7 (amended).  For a member-access callee whose own node yields no
symbol, the resolver falls back to the symbol of the immediate object
sub-expression of the access (one level only), and it classifies the call as
unresolved exactly when that one-level fallback yields no symbol or the
symbol it yields has no declaration backed by a source file. -/
theorem member_fallback_one_level (rel : String → String) (obj : Callee) :
    resolveSym (Callee.member obj none) = obj.symbolOf ∧
    (resolveCallTargetFile rel ⟨Callee.member obj none⟩ = none ↔
      obj.symbolOf = none ∨
      (∃ s, obj.symbolOf = some s ∧ ∀ d ∈ s.decls, d.sourceFile = none)) := by
  refine ⟨rfl, ?_⟩
  show ((match resolveSym (Callee.member obj none) with
    | none => none
    | some s => firstDeclResult rel s.decls) = none ↔ _)
  rw [show resolveSym (Callee.member obj none) = obj.symbolOf from rfl]
  cases ho : obj.symbolOf with
  | none =>
    show (none : Option String) = none ↔ _
    simp
  | some s =>
    show firstDeclResult rel s.decls = none ↔ _
    rw [firstDeclResult_eq_none]
    constructor
    · intro h
      exact Or.inr ⟨s, rfl, h⟩
    · rintro (h | ⟨s2, hs2, h2⟩)
      · exact Option.noConfusion h
      · injection hs2 with he
        subst he
        exact h2

/-- Witness for C7: both unresolved cases of the amended characterization at
concrete inputs (object with no symbol; object symbol with no
declarations). -/
theorem member_fallback_one_level_witness :
    resolveSym (Callee.member (Callee.ident none) none) = none ∧
    resolveCallTargetFile relW ⟨Callee.member (Callee.ident none) none⟩ =
      none ∧
    resolveCallTargetFile relW ⟨Callee.member (Callee.ident (some symEmpty))
      none⟩ = none := by
  refine ⟨(member_fallback_one_level relW (Callee.ident none)).1, ?_, ?_⟩
  · exact (member_fallback_one_level relW (Callee.ident none)).2.mpr
      (Or.inl rfl)
  · exact (member_fallback_one_level relW
      (Callee.ident (some symEmpty))).2.mpr
      (Or.inr ⟨symEmpty, rfl, fun d hd => absurd hd (List.not_mem_nil d)⟩)

end InfoSphere
